import Mathlib

/-!
Shallow embedding of `src/dff_calc/df_f_calculation.py` (PBLab/dff-calc).

The source is a three-stage dF/F pipeline over pandas DataFrames whose
columns are channels.  Every pandas rolling/ewm call is embedded by its
documented per-column semantics over `List ℚ`, one channel at a time
(pandas applies each of these operations column-wise, so the per-channel
embedding is exact).  Machine floats are modelled as rationals;
`np.finfo(float).eps` is the concrete rational `2 ^ (-52)`.

Undefined (NaN) entries are modelled explicitly as `Option.none`.

The exponentially-weighted mean `ewm(halflife=tau_0, min_periods=min_per)`
(`adjust=True`, the pandas default) is embedded with its per-sample decay
factor `w` as an explicit parameter; in the source `w = 2 ^ (-1 / tau_0)`
with `tau_0` the (real-valued) half-life in samples, an irrational number,
so the relation between `w` and the half-life is stated over `ℝ` in the
theorems rather than baked into the executable `ℚ` pipeline.
-/

/-- The epsilon `np.finfo(float).eps` added in `_calc_f0`, as a rational. -/
def eps : ℚ := 1 / 2 ^ 52

/-- pandas `Series.rolling(window=n, win_type="boxcar").mean()`:
with an integer window and no explicit `min_periods`, `min_periods`
defaults to the window size, and the window is the trailing (default
`center=False`) window of the last `n` samples; entries whose trailing
window holds fewer than `n` samples are NaN (`none`). -/
def boxcarMean (n : ℕ) (xs : List ℚ) : List (Option ℚ) :=
  (List.range xs.length).map fun t =>
    if 1 ≤ n ∧ n ≤ t + 1 then
      some (((xs.drop (t + 1 - n)).take n).sum / (n : ℚ))
    else none

/-- pandas `.rolling(window=m, min_periods=p).min()` over a series that may
hold NaNs (`none`): at index `t` the window is the trailing slice of
indices `max (t+1-m) 0 … t`; the entry is the minimum of the non-NaN
values in the window when there are at least `p` of them, NaN otherwise. -/
def rollingMin (m p : ℕ) (ys : List (Option ℚ)) : List (Option ℚ) :=
  (List.range ys.length).map fun t =>
    let lo := t + 1 - m
    let valid := ((ys.drop lo).take (t + 1 - lo)).filterMap id
    if p ≤ valid.length then valid.min? else none

/-- Embedding of `_calc_f0(data, tau_1, tau_2, min_per)`: trailing boxcar mean of window
`tau_1`, then trailing rolling minimum of window `tau_2` with
`min_periods = min_per`, then `+ np.finfo(float).eps` elementwise
(NaN + eps stays NaN).  One channel (one DataFrame column). -/
def calc_f0 (xs : List ℚ) (tau_1 tau_2 min_per : ℕ) : List (Option ℚ) :=
  (rollingMin tau_2 min_per (boxcarMean tau_1 xs)).map (Option.map (· + eps))

/-- Embedding of `_calc_dff_unfiltered(f0, data, low_background_flag, low_background_offset_value)`:
elementwise raw ratio against the baseline, followed by `fillna(0)`
(a NaN baseline entry propagates to a NaN ratio, which becomes 0).
One channel. -/
def calc_dff_unfiltered (f0 : List (Option ℚ)) (xs : List ℚ)
    (low_background_flag : Bool) (low_background_offset_value : ℚ) : List ℚ :=
  List.zipWith
    (fun o x =>
      match o with
      | none => 0
      | some f =>
        if low_background_flag then
          (x + 2 * low_background_offset_value - f) / (f + low_background_offset_value)
        else
          (x - f) / f)
    f0 xs

/-- Embedding of `_filter_dff(unfiltered_dff, tau_0, min_per)`: pandas
`ewm(halflife=tau_0, min_periods=min_per).mean().fillna(0)` with the
default `adjust=True` on a NaN-free input; `w` is the per-sample decay
factor (in the source, `2 ^ (-1/tau_0)`).  Entry `t` is the
renormalized weighted average of samples `0 … t` with weights
`w ^ lag`, defined once at least `min_per` observations have been seen,
and 0 (the filled NaN) before that.  One channel. -/
def filter_dff (w : ℚ) (min_per : ℕ) (xs : List ℚ) : List ℚ :=
  (List.range xs.length).map fun t =>
    if min_per ≤ t + 1 then
      ((List.range (t + 1)).map fun i => w ^ i * xs.getD (t - i) 0).sum /
        ((List.range (t + 1)).map fun i => w ^ i).sum
    else 0

/-- Python `int(·)` on a rational: truncation toward zero. -/
def ratTrunc (q : ℚ) : ℤ := if 0 ≤ q then ⌊q⌋ else -⌊-q⌋

/-- Embedding of `_apply_units_and_corrections(fps, tau_0, tau_1, tau_2)`:
`(fps*tau_0, int(fps*tau_1), int(fps*tau_2), max(1, int(fps/10)))`. -/
def apply_units_and_corrections (fps tau_0 tau_1 tau_2 : ℚ) : ℚ × ℤ × ℤ × ℤ :=
  (fps * tau_0, ratTrunc (fps * tau_1), ratTrunc (fps * tau_2),
    max 1 (ratTrunc (fps / 10)))

/-- The body of `dff_calc` on a single channel: optional sign inversion,
baseline, raw ratio with the hard-coded `low_background_offset_value = 0.05`,
exponential smoothing. -/
def dffChannel (w : ℚ) (tau_1 tau_2 min_per : ℕ)
    (invert low_background_flag : Bool) (xs : List ℚ) : List ℚ :=
  let d := if invert then xs.map (fun v => -v) else xs
  filter_dff w min_per
    (calc_dff_unfiltered (calc_f0 d tau_1 tau_2 min_per) d low_background_flag (1 / 20))

/-- Embedding of `dff_calc` on a 2-D input (list of channel rows); window parameters are
already in sample units (`tau_1 = int(fps*tau_1)` etc., see
`apply_units_and_corrections`), `w` is the ewm decay factor derived from
`tau_0`.  Every stage acts column-wise on the transposed DataFrame, i.e.
independently per channel, and the final transpose restores (channel, time). -/
def dff_calc (w : ℚ) (tau_1 tau_2 min_per : ℕ)
    (invert low_background_flag : Bool) (data : List (List ℚ)) : List (List ℚ) :=
  data.map (dffChannel w tau_1 tau_2 min_per invert low_background_flag)

/-- Embedding of `dff_calc` on a 1-D input.  In the source, a 1-D `data` of
length T reaches `_calc_dff_unfiltered` as a `(T,)` row while `f0` is the
`(T, 1)` column frame built by `_calc_f0` (`pd.DataFrame(data.T)` of a 1-D
array has one column), so `(data.T - f0) / f0` broadcasts `(1, T)` against
`(T, 1)` into a `(T, T)` frame whose column `j` rates sample `data[j]`
against every baseline entry (a NaN baseline entry makes its whole row NaN,
filled to 0).  The `(T, T)` frame is then smoothed column-wise by
`_filter_dff`, and the `data.ndim == 1` branch returns
`np.atleast_2d(dff.to_numpy().ravel())`: the row-major flattening of the
`(T, T)` result as a single row of length T². -/
def dff_calc_1d (w : ℚ) (tau_1 tau_2 min_per : ℕ)
    (invert low_background_flag : Bool) (xs : List ℚ) : List (List ℚ) :=
  let d := if invert then xs.map (fun v => -v) else xs
  let f0 := calc_f0 d tau_1 tau_2 min_per
  let cols := d.map fun x =>
    calc_dff_unfiltered f0 (List.replicate f0.length x) low_background_flag (1 / 20)
  let filtered := cols.map (filter_dff w min_per)
  [(List.range f0.length).flatMap fun i => filtered.map fun c => c.getD i 0]

/-- Stage-1 baseline smoothing as the spec's §4.2 words describe it:
a *centered* boxcar moving average of window length `n`, NaN whenever
fewer than `n` samples are available in the centered window.  Written for
comparison with `boxcarMean`, the embedding of the source's stage 1. -/
def centeredBoxcarMean (n : ℕ) (xs : List ℚ) : List (Option ℚ) :=
  (List.range xs.length).map fun t =>
    if 1 ≤ n ∧ (n - 1) / 2 ≤ t ∧ t - (n - 1) / 2 + n ≤ xs.length then
      some (((xs.drop (t - (n - 1) / 2)).take n).sum / (n : ℚ))
    else none

/-! ## Helper lemmas -/

theorem getD_map_range {α : Type} (f : ℕ → α) (d : α) {t n : ℕ} (h : t < n) :
    ((List.range n).map f).getD t d = f t := by
  rw [List.getD_eq_getElem _ _ (by simpa using h)]
  simp

theorem length_boxcarMean (n : ℕ) (xs : List ℚ) :
    (boxcarMean n xs).length = xs.length := by
  simp [boxcarMean]

theorem length_rollingMin (m p : ℕ) (ys : List (Option ℚ)) :
    (rollingMin m p ys).length = ys.length := by
  simp [rollingMin]

theorem length_calc_f0 (xs : List ℚ) (tau_1 tau_2 min_per : ℕ) :
    (calc_f0 xs tau_1 tau_2 min_per).length = xs.length := by
  simp [calc_f0, length_rollingMin, length_boxcarMean]

theorem length_calc_dff_unfiltered (f0 : List (Option ℚ)) (xs : List ℚ)
    (flag : Bool) (off : ℚ) :
    (calc_dff_unfiltered f0 xs flag off).length = min f0.length xs.length := by
  simp [calc_dff_unfiltered]

theorem length_filter_dff (w : ℚ) (min_per : ℕ) (xs : List ℚ) :
    (filter_dff w min_per xs).length = xs.length := by
  simp [filter_dff]

theorem length_dffChannel (w : ℚ) (tau_1 tau_2 min_per : ℕ)
    (invert flag : Bool) (xs : List ℚ) :
    (dffChannel w tau_1 tau_2 min_per invert flag xs).length = xs.length := by
  cases invert <;>
    simp [dffChannel, length_filter_dff, length_calc_dff_unfiltered, length_calc_f0]

/-! ## Claim theorems -/

theorem sum_map_const_nat {α : Type} (l : List α) (m : ℕ) :
    (l.map fun _ => m).sum = l.length * m := by
  induction l with
  | nil => simp
  | cons a l ih => simp [ih, Nat.succ_mul, Nat.add_comm]

theorem length_row_dff_calc_1d (w : ℚ) (tau_1 tau_2 min_per : ℕ)
    (invert flag : Bool) (xs : List ℚ) :
    ((dff_calc_1d w tau_1 tau_2 min_per invert flag xs).getD 0 []).length
      = xs.length * xs.length := by
  cases invert <;>
    simp [dff_calc_1d, List.length_flatMap, Function.comp_def, sum_map_const_nat,
      length_calc_f0]

/-- C1 (code bug): 2-D shapes are preserved (output (C, T) for input
(C, T), row by row), but the claim's 1-D half fails in the source: a 1-D
input of length T reaches `_calc_dff_unfiltered` as a `(T,)` row against
the `(T, 1)` baseline frame, broadcasts to `(T, T)`, and the
`data.ndim == 1` branch returns a `(1, T²)` matrix rather than `(1, T)` —
stated here as the single output row having length `T * T`. -/
theorem dff_calc_shape_bug (w : ℚ) (tau_1 tau_2 min_per : ℕ)
    (invert low_background_flag : Bool) (data : List (List ℚ)) (xs : List ℚ) :
    (dff_calc w tau_1 tau_2 min_per invert low_background_flag data).length
        = data.length
    ∧ (∀ i, i < data.length →
        ((dff_calc w tau_1 tau_2 min_per invert low_background_flag data).getD i []).length
          = (data.getD i []).length)
    ∧ (dff_calc_1d w tau_1 tau_2 min_per invert low_background_flag xs).length = 1
    ∧ ((dff_calc_1d w tau_1 tau_2 min_per invert low_background_flag xs).getD 0 []).length
        = xs.length * xs.length := by
  refine ⟨by simp [dff_calc], ?_, by simp [dff_calc_1d],
    length_row_dff_calc_1d w tau_1 tau_2 min_per invert low_background_flag xs⟩
  intro i hi
  rw [List.getD_eq_getElem _ _ (by simpa [dff_calc] using hi),
      List.getD_eq_getElem _ _ hi]
  simp [dff_calc, length_dffChannel]

/-- C1 witness: 2-D row-length preservation applied at a concrete input,
and the divergent 1-D failing input `[1, 2]`, whose single output row has
`2 * 2 = 4` entries rather than 2. -/
theorem dff_calc_shape_bug_witness :
    ((dff_calc 1 2 2 1 false false [[1, 2, 3], [4, 5, 6]]).getD 0 []).length
      = (([[1, 2, 3], [4, 5, 6]] : List (List ℚ)).getD 0 []).length
    ∧ ((dff_calc_1d 1 1 1 1 false false [1, 2]).getD 0 []).length
        = ([1, 2] : List ℚ).length * ([1, 2] : List ℚ).length :=
  ⟨(dff_calc_shape_bug 1 2 2 1 false false [[1, 2, 3], [4, 5, 6]] [7, 8]).2.1 0
      (by norm_num),
    (dff_calc_shape_bug 1 1 1 1 false false [] [1, 2]).2.2.2⟩

/-- C2: the raw elementwise ratio against a defined, strictly positive
baseline value `F` is `(x - F) / F` in standard mode and
`(x + 2*offset - F) / (F + offset)` with `offset = 0.05 = 1/20` in
low-background mode. -/
theorem calc_dff_unfiltered_ratio (f0 : List (Option ℚ)) (xs : List ℚ)
    (low_background_flag : Bool) (t : ℕ) (F : ℚ)
    (hF : f0.getD t none = some F) (hFpos : 0 < F) (ht : t < xs.length) :
    (calc_dff_unfiltered f0 xs low_background_flag (1 / 20)).getD t 0 =
      if low_background_flag then
        (xs.getD t 0 + 2 * (1 / 20) - F) / (F + 1 / 20)
      else
        (xs.getD t 0 - F) / F := by
  have htf : t < f0.length := by
    by_contra hc
    push_neg at hc
    rw [List.getD_eq_default _ _ hc] at hF
    exact Option.noConfusion hF
  rw [List.getD_eq_getElem _ _
    (by simpa [length_calc_dff_unfiltered] using lt_min htf ht)]
  rw [List.getD_eq_getElem _ _ htf] at hF
  rw [List.getD_eq_getElem _ _ ht]
  unfold calc_dff_unfiltered
  rw [List.getElem_zipWith, hF]

/-- C2 witness at a concrete input. -/
theorem calc_dff_unfiltered_ratio_witness :
    (calc_dff_unfiltered [some 1] [3] true (1 / 20)).getD 0 0 =
      if true then
        (([3] : List ℚ).getD 0 0 + 2 * (1 / 20) - 1) / (1 + 1 / 20)
      else
        (([3] : List ℚ).getD 0 0 - 1) / 1 :=
  calc_dff_unfiltered_ratio [some 1] [3] true 0 1 rfl (by norm_num) (by norm_num)

/-- C6: on the spec's parameter domain (positive frame rate, non-negative
time constants) the parameter normalizer returns
`tau_0_samples = fps * tau_0` (a rational), `tau_1_samples = ⌊fps * tau_1⌋`,
`tau_2_samples = ⌊fps * tau_2⌋` and `min_per = max 1 ⌊fps / 10⌋`
(Python `int(·)` truncates toward zero, which on non-negative arguments is
the floor). -/
theorem apply_units_and_corrections_spec (fps tau_0 tau_1 tau_2 : ℚ)
    (hf : 0 ≤ fps) (h0 : 0 ≤ tau_0) (h1 : 0 ≤ tau_1) (h2 : 0 ≤ tau_2) :
    apply_units_and_corrections fps tau_0 tau_1 tau_2
      = (fps * tau_0, ⌊fps * tau_1⌋, ⌊fps * tau_2⌋, max 1 ⌊fps / 10⌋) := by
  unfold apply_units_and_corrections ratTrunc
  rw [if_pos (mul_nonneg hf h1), if_pos (mul_nonneg hf h2),
      if_pos (div_nonneg hf (by norm_num))]

/-- C6 witness at the source's default parameters (`fps = 30`,
`tau_0 = 0.1`, `tau_1 = 0.35`, `tau_2 = 2`). -/
theorem apply_units_and_corrections_spec_witness :
    apply_units_and_corrections 30 (1 / 10) (7 / 20) 2
      = (30 * (1 / 10), ⌊(30 : ℚ) * (7 / 20)⌋, ⌊(30 : ℚ) * 2⌋,
          max 1 ⌊(30 : ℚ) / 10⌋) :=
  apply_units_and_corrections_spec 30 (1 / 10) (7 / 20) 2
    (by norm_num) (by norm_num) (by norm_num) (by norm_num)

/-- C8: running with `invert = true` on a trace equals running with
`invert = false` on the negated trace, both for 2-D and for 1-D inputs. -/
theorem dff_calc_invert_eq_neg (w : ℚ) (tau_1 tau_2 min_per : ℕ)
    (low_background_flag : Bool) (data : List (List ℚ)) (xs : List ℚ) :
    dff_calc w tau_1 tau_2 min_per true low_background_flag data
      = dff_calc w tau_1 tau_2 min_per false low_background_flag
          (data.map (List.map fun v => -v))
    ∧ dff_calc_1d w tau_1 tau_2 min_per true low_background_flag xs
      = dff_calc_1d w tau_1 tau_2 min_per false low_background_flag
          (xs.map fun v => -v) := by
  constructor
  · simp [dff_calc, dffChannel, Function.comp]
  · simp [dff_calc_1d, dffChannel]

/-- C9: row `i` of the output on a multi-channel matrix equals the
(single) row of the output on the matrix holding row `i` alone. -/
theorem dff_calc_channel_indep (w : ℚ) (tau_1 tau_2 min_per : ℕ)
    (invert low_background_flag : Bool) (data : List (List ℚ)) (i : ℕ)
    (h : i < data.length) :
    (dff_calc w tau_1 tau_2 min_per invert low_background_flag data).getD i []
      = (dff_calc w tau_1 tau_2 min_per invert low_background_flag
          [data.getD i []]).getD 0 [] := by
  rw [List.getD_eq_getElem _ _ (by simpa [dff_calc] using h),
      List.getD_eq_getElem _ _ h]
  simp [dff_calc]

/-- C9 witness at a concrete two-channel input. -/
theorem dff_calc_channel_indep_witness :
    (dff_calc 1 1 1 1 false false [[1], [2]]).getD 1 []
      = (dff_calc 1 1 1 1 false false
          [([[1], [2]] : List (List ℚ)).getD 1 []]).getD 0 [] :=
  dff_calc_channel_indep 1 1 1 1 false false [[1], [2]] 1 (by norm_num)

/-! ## C3: the boxcar stage is trailing, not centered -/

theorem slice_eq_map_range' (xs : List ℚ) :
    ∀ (len lo : ℕ), lo + len ≤ xs.length →
      (xs.drop lo).take len = (List.range' lo len).map fun i => xs.getD i 0 := by
  intro len
  induction len with
  | zero => intro lo _; simp
  | succ n ih =>
    intro lo h
    have hlo : lo < xs.length := by omega
    rw [List.range'_succ, List.map_cons, List.drop_eq_getElem_cons hlo,
        List.take_succ_cons, List.getD_eq_getElem _ _ hlo, ih (lo + 1) (by omega)]

/-- C3 counterexample: the source's first baseline stage disagrees with a
centered boxcar moving average on a concrete trace (window 3, trace
`[0, 3, 6, 9, 12]`: the source yields `[NaN, NaN, 3, 6, 9]`, a centered
boxcar yields `[NaN, 3, 6, 9, NaN]`). -/
theorem boxcarMean_ne_centered :
    boxcarMean 3 [0, 3, 6, 9, 12] ≠ centeredBoxcarMean 3 [0, 3, 6, 9, 12] := by
  norm_num [boxcarMean, centeredBoxcarMean, List.range_succ]

/-- C3 (amended): the first baseline stage computes a *trailing*
(backward-looking) uniformly weighted moving average of window length
`tau_1_samples`: entry `t` is NaN exactly when the trailing window holds
fewer than `tau_1_samples` samples (no `min_per` floor appears), and
otherwise is the mean of samples `t+1-tau_1_samples … t`. -/
theorem boxcarMean_trailing (n : ℕ) (xs : List ℚ) (t : ℕ)
    (hn : 1 ≤ n) (ht : t < xs.length) :
    ((boxcarMean n xs).getD t none = none ↔ t + 1 < n)
    ∧ (n ≤ t + 1 →
        (boxcarMean n xs).getD t none
          = some ((((List.range' (t + 1 - n) n).map fun i => xs.getD i 0).sum)
              / (n : ℚ))) := by
  unfold boxcarMean
  rw [getD_map_range _ _ ht]
  constructor
  · by_cases hc : n ≤ t + 1
    · rw [if_pos ⟨hn, hc⟩]
      simp only [reduceCtorEq, false_iff]
      omega
    · rw [if_neg (by tauto)]
      simp only [true_iff]
      omega
  · intro hc
    rw [if_pos ⟨hn, hc⟩, slice_eq_map_range' xs n (t + 1 - n) (by omega)]

/-- C3 witness: trailing-mean characterization evaluated at window 2,
trace `[1, 5, 9]`, index 1. -/
theorem boxcarMean_trailing_witness :
    (boxcarMean 2 [1, 5, 9]).getD 1 none
      = some ((((List.range' (1 + 1 - 2) 2).map
          fun i => ([1, 5, 9] : List ℚ).getD i 0).sum) / (2 : ℚ)) :=
  (boxcarMean_trailing 2 [1, 5, 9] 1 (by norm_num) (by norm_num)).2 (by norm_num)

/-! ## C4: positivity of the baseline -/

/-- Every defined value of the boxcar stage over a non-negative trace is
non-negative (it is a mean of trace samples). -/
theorem boxcarMean_mem_nonneg (n : ℕ) (xs : List ℚ) (hxs : ∀ x ∈ xs, 0 ≤ x)
    (u : ℚ) (hu : some u ∈ boxcarMean n xs) : 0 ≤ u := by
  unfold boxcarMean at hu
  rw [List.mem_map] at hu
  obtain ⟨t, -, hft⟩ := hu
  split at hft
  · obtain rfl : ((xs.drop (t + 1 - n)).take n).sum / (n : ℚ) = u :=
      Option.some.inj hft
    apply div_nonneg
    · apply List.sum_nonneg
      intro x hx
      exact hxs x (((List.take_sublist _ _).trans (List.drop_sublist _ _)).mem hx)
    · positivity
  · exact Option.noConfusion hft

/-- Every defined value of the rolling-minimum stage is one of the defined
values of its input series. -/
theorem rollingMin_mem (m p : ℕ) (ys : List (Option ℚ)) (v : ℚ)
    (hv : some v ∈ rollingMin m p ys) : some v ∈ ys := by
  unfold rollingMin at hv
  rw [List.mem_map] at hv
  obtain ⟨t, -, hft⟩ := hv
  dsimp only at hft
  split at hft
  · have hmem := List.min?_mem (fun a b => min_choice a b) hft
    rw [List.mem_filterMap] at hmem
    obtain ⟨o, ho, hov⟩ := hmem
    have hoeq : o = some v := hov
    rw [hoeq] at ho
    exact ((List.take_sublist _ _).trans (List.drop_sublist _ _)).mem ho
  · exact Option.noConfusion hft

/-- C4 counterexample: on the constant trace `[-1]` (e.g. an inverted
positive trace) the baseline entry is defined and *negative*:
`-1 + eps < 0`, refuting strict positivity for arbitrary traces. -/
theorem calc_f0_negative_entry :
    (calc_f0 [-1] 1 1 1).getD 0 none = some (-1 + eps)
    ∧ (-1 + eps : ℚ) < 0 := by
  constructor
  · norm_num [calc_f0, rollingMin, boxcarMean, List.range_succ, List.min?,
      List.filterMap_cons, eps]
  · norm_num [eps]

/-- C4 (amended): for traces with non-negative entries, every defined entry
of the baseline table F0 is strictly positive (the trailing minimum of
boxcar means is non-negative and the positive `eps` is added to it). -/
theorem calc_f0_pos_of_nonneg (xs : List ℚ) (tau_1 tau_2 min_per t : ℕ) (v : ℚ)
    (hxs : ∀ x ∈ xs, 0 ≤ x)
    (hv : (calc_f0 xs tau_1 tau_2 min_per).getD t none = some v) : 0 < v := by
  have ht : t < (calc_f0 xs tau_1 tau_2 min_per).length := by
    by_contra hc
    push_neg at hc
    rw [List.getD_eq_default _ _ hc] at hv
    exact Option.noConfusion hv
  rw [List.getD_eq_getElem _ _ ht] at hv
  unfold calc_f0 at hv ht
  rw [List.getElem_map] at hv
  obtain ⟨u, hu, huv⟩ := Option.map_eq_some'.mp hv
  have humem : some u ∈ rollingMin tau_2 min_per (boxcarMean tau_1 xs) := by
    rw [← hu]
    exact List.getElem_mem _
  have h0u := boxcarMean_mem_nonneg tau_1 xs hxs u (rollingMin_mem _ _ _ _ humem)
  have heps : (0 : ℚ) < eps := by norm_num [eps]
  rw [← huv]
  linarith

/-- C4 witness: the amended positivity applied to the non-negative trace
`[2]`. -/
theorem calc_f0_pos_of_nonneg_witness : (0 : ℚ) < 2 + eps :=
  calc_f0_pos_of_nonneg [2] 1 1 1 0 (2 + eps) (by norm_num)
    (by norm_num [calc_f0, rollingMin, boxcarMean, List.range_succ, List.min?,
      List.filterMap_cons])

/-! ## C5: the exponential smoother -/

theorem sum_map_div {α : Type} (l : List α) (f : α → ℚ) (c : ℚ) :
    (l.map fun a => f a / c).sum = (l.map f).sum / c := by
  induction l with
  | nil => simp
  | cons a l ih => simp [ih, add_div]

theorem sum_pow_pos (w : ℚ) (hw : 0 < w) (t : ℕ) :
    0 < ((List.range (t + 1)).map fun i => w ^ i).sum := by
  apply List.sum_pos
  · intro x hx
    rw [List.mem_map] at hx
    obtain ⟨i, -, rfl⟩ := hx
    positivity
  · simp

/-- C5: the smoother's entry at `t` (once at least `min_per` observations
have been seen) is the weighted average of samples `0 … t` with the
normalized weights `w ^ lag / Σ w ^ lag`, and those weights sum to 1
(renormalization over the available history); entries with fewer than
`min_per` observations are the filled NaN, 0.  Moreover for every positive
real half-life `tau_0` there is a per-sample decay factor `d` (in the
source, `2 ^ (-1/tau_0)`) with `d ^ tau_0 = 1/2`, under which every
additional `tau_0` samples of lag halves a sample's weight. -/
theorem filter_dff_spec (w : ℚ) (min_per : ℕ) (xs : List ℚ) (t : ℕ)
    (hw : 0 < w) (ht : t < xs.length) :
    (min_per ≤ t + 1 →
        (filter_dff w min_per xs).getD t 0
          = ((List.range (t + 1)).map fun i =>
              w ^ i / ((List.range (t + 1)).map fun j => w ^ j).sum
                * xs.getD (t - i) 0).sum
        ∧ ((List.range (t + 1)).map fun i =>
            w ^ i / ((List.range (t + 1)).map fun j => w ^ j).sum).sum = 1)
    ∧ (t + 1 < min_per → (filter_dff w min_per xs).getD t 0 = 0)
    ∧ (∀ tau_0 : ℝ, 0 < tau_0 →
        ∃ d : ℝ, 0 < d ∧ d ^ tau_0 = 1 / 2
          ∧ ∀ L : ℝ, d ^ (L + tau_0) = 1 / 2 * d ^ L) := by
  have hS := sum_pow_pos w hw t
  refine ⟨?_, ?_, ?_⟩
  · intro hmp
    unfold filter_dff
    rw [getD_map_range _ _ ht, if_pos hmp]
    constructor
    · simp only [div_mul_eq_mul_div]
      rw [sum_map_div]
    · rw [sum_map_div]
      exact div_self (ne_of_gt hS)
  · intro hlt
    unfold filter_dff
    rw [getD_map_range _ _ ht, if_neg (by omega)]
  · intro tau_0 htau
    have hdpos : (0 : ℝ) < (2 : ℝ) ^ (-1 / tau_0) :=
      Real.rpow_pos_of_pos (by norm_num) _
    have hd : ((2 : ℝ) ^ (-1 / tau_0)) ^ tau_0 = 1 / 2 := by
      rw [← Real.rpow_mul (by norm_num : (0 : ℝ) ≤ 2),
          div_mul_cancel₀ (-1 : ℝ) (ne_of_gt htau), Real.rpow_neg_one]
      norm_num
    refine ⟨(2 : ℝ) ^ (-1 / tau_0), hdpos, hd, fun L => ?_⟩
    rw [Real.rpow_add hdpos, hd]
    ring

/-- C5 witness: the weighted-average form and the weight normalization at
`w = 1/2`, `min_per = 1`, trace `[3]`, index 0. -/
theorem filter_dff_spec_witness :
    (filter_dff (1 / 2) 1 [3]).getD 0 0
      = ((List.range (0 + 1)).map fun i =>
          (1 / 2 : ℚ) ^ i / ((List.range (0 + 1)).map fun j => (1 / 2 : ℚ) ^ j).sum
            * ([3] : List ℚ).getD (0 - i) 0).sum
    ∧ ((List.range (0 + 1)).map fun i =>
        (1 / 2 : ℚ) ^ i / ((List.range (0 + 1)).map fun j => (1 / 2 : ℚ) ^ j).sum).sum
        = 1 :=
  (filter_dff_spec (1 / 2) 1 [3] 0 (by norm_num) (by norm_num)).1 (by norm_num)

/-! ## C7: undefined intermediates become 0 (warm-up zeroing) -/

theorem length_filterMap_id (l : List (Option ℚ)) :
    (l.filterMap id).length = l.countP (fun o => o.isSome) := by
  induction l with
  | nil => rfl
  | cons a l ih => cases a <;> simp [List.filterMap_cons, ih, List.countP_cons]

theorem countP_range_le (c : ℕ) (q : ℕ → Bool) (hq : ∀ j, q j = true → c ≤ j) :
    ∀ k : ℕ, (List.range k).countP q ≤ k - c := by
  intro k
  induction k with
  | zero => simp
  | succ n ih =>
    rw [List.range_succ, List.countP_append]
    have h1 : List.countP q [n] = if q n = true then 1 else 0 := by
      simp [List.countP_cons]
    rw [h1]
    by_cases hqn : q n = true
    · have := hq n hqn
      rw [if_pos hqn]
      omega
    · rw [if_neg hqn]
      omega

/-- During the warm-up period (fewer than `tau_1 + min_per - 1` samples of
history) the baseline entry is undefined. -/
theorem calc_f0_warmup_none (d : List ℚ) (tau_1 tau_2 min_per s : ℕ)
    (h1 : 1 ≤ tau_1) (hmp : 1 ≤ min_per) (hs : s < d.length)
    (hwu : s + 2 < tau_1 + min_per) :
    (calc_f0 d tau_1 tau_2 min_per).getD s none = none := by
  have hsb : s < (boxcarMean tau_1 d).length := by
    rw [length_boxcarMean]; exact hs
  have hnone : (rollingMin tau_2 min_per (boxcarMean tau_1 d)).getD s (some 0)
      = none := by
    unfold rollingMin
    rw [getD_map_range _ _ hsb]
    dsimp only
    rw [if_neg]
    rw [length_filterMap_id]
    set ys := boxcarMean tau_1 d with hys
    have hsub : List.Sublist
        ((ys.drop (s + 1 - tau_2)).take (s + 1 - (s + 1 - tau_2)))
        (ys.take (s + 1)) := by
      rw [List.take_drop]
      have harith : s + 1 - tau_2 + (s + 1 - (s + 1 - tau_2)) = s + 1 := by omega
      rw [harith]
      exact List.drop_sublist _ _
    have hle := List.Sublist.countP_le (fun o => o.isSome) hsub
    have htake : List.countP (fun o => o.isSome) (ys.take (s + 1))
        ≤ s + 1 - (tau_1 - 1) := by
      rw [hys]
      unfold boxcarMean
      rw [← List.map_take, List.take_range, List.countP_map]
      have hcount := countP_range_le (tau_1 - 1)
        ((fun o => o.isSome) ∘ fun t =>
          if 1 ≤ tau_1 ∧ tau_1 ≤ t + 1 then
            some (((d.drop (t + 1 - tau_1)).take tau_1).sum / (tau_1 : ℚ))
          else none)
        (by
          intro j hj
          by_cases hc : 1 ≤ tau_1 ∧ tau_1 ≤ j + 1
          · omega
          · simp [Function.comp, hc] at hj)
        (min (s + 1) d.length)
      calc List.countP _ (List.range (min (s + 1) d.length)) ≤
            min (s + 1) d.length - (tau_1 - 1) := hcount
        _ ≤ s + 1 - (tau_1 - 1) := by omega
    omega
  have hcf : s < (calc_f0 d tau_1 tau_2 min_per).length := by
    rw [length_calc_f0]; exact hs
  unfold calc_f0 at hcf ⊢
  rw [List.getD_eq_getElem _ _ hcf, List.getElem_map]
  rw [List.getD_eq_getElem _ _ (by rw [length_rollingMin]; exact hsb)] at hnone
  rw [hnone]
  rfl

/-- A NaN baseline entry yields 0 in the unfiltered dF/F (the `fillna(0)`). -/
theorem calc_dff_unfiltered_zero_of_none (f0 : List (Option ℚ)) (xs : List ℚ)
    (flag : Bool) (off : ℚ) (t : ℕ) (hf : f0.getD t (some 0) = none) :
    (calc_dff_unfiltered f0 xs flag off).getD t 0 = 0 := by
  have htf : t < f0.length := by
    by_contra hc
    push_neg at hc
    rw [List.getD_eq_default _ _ hc] at hf
    exact Option.noConfusion hf
  by_cases htx : t < xs.length
  · rw [List.getD_eq_getElem _ _
      (by rw [length_calc_dff_unfiltered]; omega)]
    unfold calc_dff_unfiltered
    rw [List.getD_eq_getElem _ _ htf] at hf
    rw [List.getElem_zipWith, hf]
  · rw [List.getD_eq_default]
    rw [length_calc_dff_unfiltered]
    omega

/-- During warm-up the whole per-channel pipeline outputs exactly 0. -/
theorem dffChannel_warmup_zero (w : ℚ) (tau_1 tau_2 min_per : ℕ)
    (invert flag : Bool) (xs : List ℚ) (t : ℕ)
    (h1 : 1 ≤ tau_1) (hmp : 1 ≤ min_per) (ht : t < xs.length)
    (hwu : t + 2 < tau_1 + min_per) :
    (dffChannel w tau_1 tau_2 min_per invert flag xs).getD t 0 = 0 := by
  unfold dffChannel
  set d := if invert then xs.map (fun v => -v) else xs with hd
  have hdlen : d.length = xs.length := by
    cases invert <;> simp [hd]
  set u := calc_dff_unfiltered (calc_f0 d tau_1 tau_2 min_per) d flag (1 / 20)
    with hu
  have hulen : u.length = xs.length := by
    rw [hu, length_calc_dff_unfiltered, length_calc_f0, hdlen]
    omega
  have huz : ∀ s, s ≤ t → u.getD s 0 = 0 := by
    intro s hst
    rw [hu]
    apply calc_dff_unfiltered_zero_of_none
    have hsd : s < d.length := by omega
    have hfn := calc_f0_warmup_none d tau_1 tau_2 min_per s h1 hmp hsd (by omega)
    rw [List.getD_eq_getElem _ _ (by rw [length_calc_f0]; omega)] at hfn ⊢
    exact hfn
  unfold filter_dff
  rw [getD_map_range _ _ (by omega : t < u.length)]
  by_cases hc : min_per ≤ t + 1
  · rw [if_pos hc]
    have hnum : ((List.range (t + 1)).map fun i => w ^ i * u.getD (t - i) 0).sum
        = 0 := by
      apply List.sum_eq_zero
      intro x hx
      rw [List.mem_map] at hx
      obtain ⟨i, -, rfl⟩ := hx
      rw [huz (t - i) (by omega)]
      ring
    rw [hnum, zero_div]
  · rw [if_neg hc]

/-- C7: undefined (NaN) intermediate results are replaced with exactly 0
rather than erroring: a NaN baseline entry gives a 0 unfiltered ratio, an
undefined exponential-mean entry (fewer than `min_per` observations) gives
a 0 output, and every timepoint before enough rolling history has
accumulated (`t + 2 < tau_1 + min_per`) is exactly 0 in the per-channel
output. -/
theorem dff_nan_replaced_with_zero (w : ℚ) (tau_1 tau_2 min_per : ℕ)
    (invert low_background_flag : Bool) (off : ℚ)
    (f0 : List (Option ℚ)) (xs : List ℚ) (t : ℕ) :
    (f0.getD t (some 0) = none →
        (calc_dff_unfiltered f0 xs low_background_flag off).getD t 0 = 0)
    ∧ (t + 1 < min_per → (filter_dff w min_per xs).getD t 0 = 0)
    ∧ (1 ≤ tau_1 → 1 ≤ min_per → min_per ≤ tau_2 → t < xs.length →
        t + 2 < tau_1 + min_per →
        (dffChannel w tau_1 tau_2 min_per invert low_background_flag xs).getD t 0
          = 0) := by
  refine ⟨calc_dff_unfiltered_zero_of_none _ _ _ _ _, ?_, ?_⟩
  · intro hlt
    by_cases ht : t < xs.length
    · unfold filter_dff
      rw [getD_map_range _ _ ht, if_neg (by omega)]
    · rw [List.getD_eq_default]
      rw [length_filter_dff]
      omega
  · intro h1 hmp hm2 ht hwu
    exact dffChannel_warmup_zero w tau_1 tau_2 min_per invert
      low_background_flag xs t h1 hmp ht hwu

/-- C7 witness: warm-up zeroing at a concrete input (`tau_1 = 2`,
`min_per = 1`, trace `[5, 6]`, index 0). -/
theorem dff_nan_replaced_with_zero_witness :
    (dffChannel (1 / 2) 2 1 1 false false [5, 6]).getD 0 0 = 0 :=
  (dff_nan_replaced_with_zero (1 / 2) 2 1 1 false false 0 [none] [5, 6] 0).2.2
    (by norm_num) (by norm_num) (by norm_num) (by norm_num) (by norm_num)
